import Mathlib

/-!
Verification development for the btc-etf-dashboard ingestion pipeline.

The definitions below are shallow embeddings of the Python sources
`fetch_etf_flows.py` (SoSoValue API variant) and `fetch_farside_flows.py`
(Farside scraper variant): pure parsing helpers, the fund-identity
resolver, the two table/response parsers, and the two merge-and-save
operations.  Numeric values are modelled as exact rationals; every
arithmetic step is written with `mkRat` and integer primitives so that
all definitions evaluate on concrete inputs.
-/

/-! ## Exact decimal arithmetic (model of Python float arithmetic) -/

/-- Addition of rationals, written via `mkRat` on cross-multiplied
numerators (value-equal to ordinary rational addition). -/
def qadd (a b : ℚ) : ℚ := mkRat (a.num * b.den + b.num * a.den) (a.den * b.den)

/-- Negation of a rational via `mkRat`. -/
def qneg (a : ℚ) : ℚ := mkRat (-a.num) a.den

/-- Division of a rational by a positive natural number. -/
def qdivN (a : ℚ) (k : ℕ) : ℚ := mkRat a.num (a.den * k)

/-- Strict comparison of two rationals by cross-multiplication
(denominators are positive). -/
def qlt (a b : ℚ) : Bool := decide (a.num * (b.den : ℤ) < b.num * (a.den : ℤ))

/-- Absolute value of a rational. -/
def qabs (a : ℚ) : ℚ := mkRat (Int.ofNat a.num.natAbs) a.den

/-- Sum of a list of rationals, left to right starting from zero —
the model of Python's sum(...). -/
def qsum (l : List ℚ) : ℚ := l.foldl qadd 0

/-- Round-half-to-even of the integer fraction n / d (d positive):
the rounding mode of Python's built-in round. -/
def rhe (n : ℤ) (d : ℕ) : ℤ :=
  let f := Int.fdiv n (d : ℤ)
  let r := n - f * (d : ℤ)
  if 2 * r < (d : ℤ) then f
  else if (d : ℤ) < 2 * r then f + 1
  else if f % 2 = 0 then f else f + 1

/-- Model of Python round(x, 1): round to one decimal place,
ties to even. -/
def rnd1 (q : ℚ) : ℚ := mkRat (rhe (q.num * 10) q.den) 10

/-! ## Character and string primitives -/

/-- ASCII digit test via code points (0-9). -/
def isDig (c : Char) : Bool := decide (48 ≤ c.toNat) && decide (c.toNat ≤ 57)

/-- Whitespace as recognised by Python str.strip and the regex
class \s (space, tab, newline, CR, vertical tab, form feed,
and the no-break space). -/
def pyWs (c : Char) : Bool :=
  c.toNat = 32 || c.toNat = 9 || c.toNat = 10 || c.toNat = 13 ||
  c.toNat = 11 || c.toNat = 12 || c.toNat = 160

/-- Strip leading and trailing whitespace from a character list
(model of Python str.strip). -/
def pyStripL (l : List Char) : List Char :=
  ((l.dropWhile pyWs).reverse.dropWhile pyWs).reverse

/-- Strip leading and trailing whitespace from a string. -/
def pyStrip (s : String) : String := String.mk (pyStripL s.data)

/-- ASCII lower-casing of one character (model of str.lower on the
inputs that occur here). -/
def lowerChar (c : Char) : Char :=
  if 65 ≤ c.toNat ∧ c.toNat ≤ 90 then Char.ofNat (c.toNat + 32) else c

/-- Lower-case a string. -/
def lowerStr (s : String) : String := String.mk (s.data.map lowerChar)

/-- Does the pattern appear at the head of the list? -/
def lstarts : List Char → List Char → Bool
  | [], _ => true
  | _ :: _, [] => false
  | p :: ps, c :: cs => (p = c) && lstarts ps cs

/-- Is the first list a contiguous substring of the second
(model of the Python in operator on strings)? -/
def lsub : List Char → List Char → Bool
  | p, l =>
    if lstarts p l then true
    else match l with
      | [] => false
      | _ :: cs => lsub p cs

/-- Substring test on strings. -/
def strSub (p s : String) : Bool := lsub p.data s.data

/-- Numeric value of a list of ASCII digits (model of int(...) on a
digit string). -/
def digitsVal (l : List Char) : ℕ := l.foldl (fun n c => n * 10 + (c.toNat - 48)) 0

/-- Decimal rendering of a natural number padded to two digits
(model of the %02d format). -/
def pad2 (n : ℕ) : String := if n < 10 then "0" ++ Nat.repr n else Nat.repr n

/-- Decimal rendering padded to four digits (model of %04d / %Y). -/
def pad4 (n : ℕ) : String :=
  if n < 10 then "000" ++ Nat.repr n
  else if n < 100 then "00" ++ Nat.repr n
  else if n < 1000 then "0" ++ Nat.repr n
  else Nat.repr n

/-! ## Model of Python float(...) on decimal strings

Accepts an optional sign, a digit string with at most one decimal
point (digits required on at least one side), and an optional
decimal exponent — the forms reachable from the table cells this
program feeds it.  Surrounding whitespace is ignored, as Python's
float does. -/

/-- Parse an optional exponent suffix; returns the exponent and
requires the remainder to be empty. -/
def parseExp : List Char → Option ℤ
  | [] => some 0
  | e :: rest =>
    if e = 'e' ∨ e = 'E' then
      let (sgn, digs) :=
        match rest with
        | '+' :: r => ((1 : ℤ), r)
        | '-' :: r => ((-1 : ℤ), r)
        | r => ((1 : ℤ), r)
      if digs ≠ [] ∧ digs.all isDig then some (sgn * (digitsVal digs : ℤ)) else none
    else none

/-- Core of the float grammar, after sign removal. -/
def parseMantissa (l : List Char) : Option (ℕ × ℕ × ℤ) :=
  let ip := l.takeWhile isDig
  let rest := l.dropWhile isDig
  match rest with
  | '.' :: r2 =>
    let fp := r2.takeWhile isDig
    let rest2 := r2.dropWhile isDig
    if ip = [] ∧ fp = [] then none
    else match parseExp rest2 with
      | some e => some (digitsVal ip * 10 ^ fp.length + digitsVal fp, fp.length, e)
      | none => none
  | _ =>
    if ip = [] then none
    else match parseExp rest with
      | some e => some (digitsVal ip, 0, e)
      | none => none

/-- Model of Python float(s) restricted to decimal notation;
returns none where Python raises ValueError. -/
def pyFloat (l : List Char) : Option ℚ :=
  let t := pyStripL l
  let (sgn, body) :=
    match t with
    | '+' :: r => ((1 : ℤ), r)
    | '-' :: r => ((-1 : ℤ), r)
    | r => ((1 : ℤ), r)
  match parseMantissa body with
  | none => none
  | some (m, fl, e) =>
    if 0 ≤ e then some (mkRat (sgn * (m : ℤ) * 10 ^ e.toNat) (10 ^ fl))
    else some (mkRat (sgn * (m : ℤ)) (10 ^ fl * 10 ^ (-e).toNat))

/-! ## fetch_farside_flows.py — value and date normalizer -/

/-- Model of parse_farside_num (fetch_farside_flows.py, lines 216-241).
Strips whitespace, thousands separators, no-break spaces and asterisk
annotations; a bare dash or em-dash is the pending marker (none);
a parenthesised magnitude is negative; everything else goes through
float and is rounded to one decimal. -/
def parse_farside_num (text : String) : Option ℚ :=
  let s := (pyStripL text.data).filter fun c => ¬ (c = ',' ∨ c.toNat = 160 ∨ c = '*')
  if s = [] ∨ s = ['-'] ∨ s = ['—'] then none
  else
    match s with
    | '(' :: rest =>
      if rest.getLast? = some ')' ∧ rest.dropLast ≠ [] ∧
         rest.dropLast.all (fun c => isDig c || c = '.') then
        match pyFloat rest.dropLast with
        | some v => some (rnd1 (qneg v))
        | none => none
      else
        match pyFloat s with
        | some v => some (rnd1 v)
        | none => none
    | _ =>
      match pyFloat s with
      | some v => some (rnd1 v)
      | none => none

/-- The month table of fetch_farside_flows.py (MONTHS, lines 56-60),
in the alternation order of DATE_RE. -/
def monthTable : List (String × String) :=
  [("Jan", "01"), ("Feb", "02"), ("Mar", "03"), ("Apr", "04"),
   ("May", "05"), ("Jun", "06"), ("Jul", "07"), ("Aug", "08"),
   ("Sep", "09"), ("Oct", "10"), ("Nov", "11"), ("Dec", "12")]

/-- Greedy match of one or two ASCII digits (the day group of
DATE_RE); returns the numeric day and the remainder. -/
def takeDay : List Char → Option (ℕ × List Char)
  | [] => none
  | c :: cs =>
    if isDig c then
      match cs with
      | d :: ds => if isDig d then some (digitsVal [c, d], ds) else some (digitsVal [c], cs)
      | [] => some (digitsVal [c], [])
    else none

/-- Match one or more whitespace characters greedily. -/
def takeWs : List Char → Option (List Char)
  | [] => none
  | c :: cs => if pyWs c then some (cs.dropWhile pyWs) else none

/-- Match one month name from the table; returns the month number
string and the remainder. -/
def takeMonth : List (String × String) → List Char → Option (String × List Char)
  | [], _ => none
  | (nm, code) :: tbl, l =>
    if lstarts nm.data l then some (code, l.drop nm.data.length) else takeMonth tbl l

/-- Match exactly four ASCII digits (the year group of DATE_RE). -/
def takeYear : List Char → Option (List Char × List Char)
  | a :: b :: c :: d :: rest =>
    if isDig a && isDig b && isDig c && isDig d then some ([a, b, c, d], rest) else none
  | _ => none

/-- Attempt the full DATE_RE pattern at the current position. -/
def tryDate (l : List Char) : Option (ℕ × String × List Char) :=
  match takeDay l with
  | none => none
  | some (day, r1) =>
    match takeWs r1 with
    | none => none
    | some r2 =>
      match takeMonth monthTable r2 with
      | none => none
      | some (code, r3) =>
        match takeWs r3 with
        | none => none
        | some r4 =>
          match takeYear r4 with
          | none => none
          | some (ys, _) => some (day, code, ys)

/-- Leftmost search of the DATE_RE pattern (model of re.search). -/
def searchDate : List Char → Option (ℕ × String × List Char)
  | [] => none
  | c :: cs =>
    match tryDate (c :: cs) with
    | some r => some r
    | none => searchDate cs

/-- Model of parse_date (fetch_farside_flows.py, lines 207-213):
searches for the DD Mon YYYY pattern and formats it as an ISO
string, zero-padding the day. -/
def parse_date (s : String) : Option String :=
  match searchDate s.data with
  | none => none
  | some (day, code, ys) => some (String.mk ys ++ "-" ++ code ++ "-" ++ pad2 day)

/-! ## fetch_etf_flows.py — identity resolver -/

/-- The ETF_INFO catalog of fetch_etf_flows.py (lines 36-49):
ticker, display name, issuer. -/
def etfInfo : List (String × String × String) :=
  [("IBIT", "iShares Bitcoin Trust", "BlackRock"),
   ("FBTC", "Wise Origin Bitcoin Fund", "Fidelity"),
   ("GBTC", "Grayscale Bitcoin Trust", "Grayscale"),
   ("BTC", "Grayscale Bitcoin Mini Trust", "Grayscale"),
   ("BITB", "Bitwise Bitcoin ETF", "Bitwise"),
   ("ARKB", "ARK 21Shares Bitcoin ETF", "ARK/21Shares"),
   ("HODL", "VanEck Bitcoin ETF", "VanEck"),
   ("BTCO", "Invesco Galaxy Bitcoin ETF", "Invesco"),
   ("BRRR", "Valkyrie Bitcoin Fund", "CoinShares"),
   ("EZBC", "Franklin Bitcoin ETF", "Franklin Templeton"),
   ("BTCW", "WisdomTree Bitcoin Fund", "WisdomTree"),
   ("DEFI", "Hashdex Bitcoin ETF", "Hashdex")]

/-- The TICKER_ALIASES table (fetch_etf_flows.py, lines 52-57) built
from a catalog of (ticker, displayName) pairs: for each fund, the
ticker, its lower-case form, the display name, and its lower-case
form, each mapping to the ticker.  Key order is insertion order. -/
def tickerAliases (cat : List (String × String)) : List (String × String) :=
  cat.foldr
    (fun tn acc =>
      (tn.1, tn.1) :: (lowerStr tn.1, tn.1) :: (tn.2, tn.1) :: (lowerStr tn.2, tn.1) :: acc)
    []

/-- First-match lookup in an association list (the keys built above
are pairwise distinct, so this agrees with the Python dict). -/
def aliasLookup (al : List (String × String)) (k : String) : Option String :=
  match al.find? fun kv => kv.1 = k with
  | some kv => some kv.2
  | none => none

/-- Scan for a parenthesis-enclosed run of three to five uppercase
letters (model of the regex search for a bracketed ticker in
resolve_ticker, lines 104-107). -/
def parenToken : List Char → Option String
  | [] => none
  | '(' :: cs =>
    let run := cs.takeWhile fun c => 65 ≤ c.toNat ∧ c.toNat ≤ 90
    if 3 ≤ run.length ∧ run.length ≤ 5 ∧ (cs.drop run.length).head? = some ')' then
      some (String.mk run)
    else parenToken cs
  | _ :: cs => parenToken cs

/-- Model of resolve_ticker (fetch_etf_flows.py, lines 84-110),
parameterised by the (ticker, displayName) catalog: exact alias
lookup, then case-insensitive stripped lookup, then substring match
in either direction against any alias, then a parenthesised ticker
symbol. -/
def resolve_ticker (cat : List (String × String)) (name : String) : Option String :=
  if name = "" then none
  else
    let al := tickerAliases cat
    match aliasLookup al name with
    | some t => some t
    | none =>
      let lower := pyStrip (lowerStr name)
      match aliasLookup al lower with
      | some t => some t
      | none =>
        match al.find? fun kv => strSub (lowerStr kv.1) lower || strSub lower (lowerStr kv.1) with
        | some kv => some kv.2
        | none =>
          match parenToken name.data with
          | some tok => if cat.any fun tn => tn.1 = tok then some tok else none
          | none => none

/-- The (ticker, displayName) pairs of the module-level catalog. -/
def etfCatalog : List (String × String) := etfInfo.map fun t => (t.1, t.2.1)

/-- The ETF_TICKERS list of fetch_etf_flows.py (lines 31-34). -/
def etfTickers : List String := etfInfo.map fun t => t.1

/-! ## fetch_etf_flows.py — unit normalisation and epoch dates -/

/-- Model of to_millions (fetch_etf_flows.py, lines 113-122): values
whose magnitude exceeds 50,000 are taken to be raw dollars and are
rescaled to millions; everything is rounded to one decimal place. -/
def to_millions (q : ℚ) : ℚ :=
  if qlt (mkRat 50000 1) (qabs q) then rnd1 (qdivN q 1000000) else rnd1 q

/-- Civil date from a count of days since 1970-01-01 (the standard
era-based algorithm; models datetime.fromtimestamp(_, utc).date()). -/
def civilFromDays (n : ℕ) : ℕ × ℕ × ℕ :=
  let z := n + 719468
  let era := z / 146097
  let doe := z % 146097
  let yoe := (doe - doe / 1460 + doe / 36524 - doe / 146096) / 365
  let y := yoe + era * 400
  let doy := doe - (365 * yoe + yoe / 4 - yoe / 100)
  let mp := (5 * doy + 2) / 153
  let d := doy - (153 * mp + 2) / 5 + 1
  let m := if mp < 10 then mp + 3 else mp - 9
  (if m ≤ 2 then y + 1 else y, m, d)

/-- Floor of a nonnegative rational divided by a positive natural. -/
def qfloorDiv (a : ℚ) (k : ℕ) : ℤ := Int.fdiv a.num (a.den * k)

/-- ISO date string of an epoch timestamp in seconds (model of
datetime.fromtimestamp(ts, tz=utc).strftime of %Y-%m-%d). -/
def epochDate (ts : ℚ) : String :=
  let c := civilFromDays (qfloorDiv ts 86400).toNat
  pad4 c.1 ++ "-" ++ pad2 c.2.1 ++ "-" ++ pad2 c.2.2

/-! ## fetch_etf_flows.py — response parsing over a JSON model -/

/-- A JSON value, as far as the response parser inspects it. -/
inductive J where
  | null : J
  | num : ℚ → J
  | str : String → J
  | arr : List J → J
  | obj : List (String × J) → J

/-- Lookup of a key in a JSON object. -/
def jGet (e : List (String × J)) (k : String) : Option J :=
  match e.find? fun kv => kv.1 = k with
  | some kv => some kv.2
  | none => none

/-- First present key among a candidate list (the probing loops break
on the first key that is in the entry). -/
def probe (e : List (String × J)) : List String → Option J
  | [] => none
  | k :: ks =>
    match jGet e k with
    | some v => some v
    | none => probe e ks

/-- First present key whose value is not null (the loops that also
test entry[key] is not None before breaking). -/
def probeNN (e : List (String × J)) : List String → Option J
  | [] => none
  | k :: ks =>
    match jGet e k with
    | some J.null => probeNN e ks
    | some v => some v
    | none => probeNN e ks

/-- First present key whose value is a list (the loops that also test
isinstance(entry[key], list)). -/
def probeArr (e : List (String × J)) : List String → Option (List J)
  | [] => none
  | k :: ks =>
    match jGet e k with
    | some (J.arr l) => some l
    | _ => probeArr e ks

/-- Numeric reading of a JSON value as Python float(val) would see it
(numbers directly, numeric strings parsed); values on which the
script would raise are not modelled and yield none. -/
def jNum : J → Option ℚ
  | J.num q => some q
  | J.str s => pyFloat s.data
  | _ => none

/-- The str(...) coercion applied to a candidate fund name; only
string values resolve to a catalog ticker, so other shapes are
mapped to a name that resolves to nothing. -/
def jName : J → String
  | J.str s => s
  | _ => ""

/-- Model of the date-probing block of parse_sosovalue_response
(fetch_etf_flows.py, lines 207-219): the first present date key is
consulted (and only that one); numeric epochs above 10^9 are taken in
seconds, above 10^12 in milliseconds, and strings of at least ten
characters contribute their first ten characters. -/
def sosoDateOf (e : List (String × J)) : Option String :=
  match probe e ["date", "tradingDate", "dataDate", "day", "time", "timestamp"] with
  | none => none
  | some (J.num q) =>
    if qlt (mkRat 1000000000 1) q then
      some (epochDate (if qlt (mkRat 1000000000000 1) q then qdivN q 1000 else q))
    else none
  | some (J.str s) =>
    if 10 ≤ s.data.length then some (String.mk (s.data.take 10)) else none
  | some _ => none

/-- Model of the total-probing block (lines 224-229): the first
present, non-null total key is normalised to millions; absent keys
leave the total at zero. -/
def sosoTotal (e : List (String × J)) : ℚ :=
  match probeNN e ["totalNetInflow", "netInflow", "total", "totalFlow", "netFlow", "dailyNetInflow"] with
  | none => 0
  | some v =>
    match jNum v with
    | some q => to_millions q
    | none => 0

/-- Replace the value stored under an existing key of the flows
mapping (dict assignment of a key that is already present). -/
def setFlow (l : List (String × ℚ)) (k : String) (v : ℚ) : List (String × ℚ) :=
  l.map fun kv => if kv.1 = k then (kv.1, v) else kv

/-- The flows mapping initialised to zero for every catalog ticker
(line 232). -/
def defaultFlows : List (String × ℚ) := etfTickers.map fun t => (t, (0 : ℚ))

/-- One step of the per-ETF breakdown loop (lines 238-258): find a
name key, resolve it, then store the first present non-null value
key (normalised) and add it to the running ETF total. -/
def sosoEtfStep (acc : List (String × ℚ) × ℚ) (j : J) : List (String × ℚ) × ℚ :=
  match j with
  | J.obj o =>
    let nm :=
      match probe o ["name", "ticker", "symbol", "etfName", "fundName"] with
      | some v => jName v
      | none => ""
    match resolve_ticker etfCatalog nm with
    | none => acc
    | some t =>
      match probeNN o ["netInflow", "change", "flow", "dailyChange", "netFlow", "value"] with
      | none => acc
      | some v =>
        match jNum v with
        | some q => (setFlow acc.1 t (to_millions q), qadd acc.2 (to_millions q))
        | none => acc
  | _ => acc

/-- The per-entry flows block (lines 232-259): the first present
list-valued breakdown key is folded over; entries that are not
objects are skipped. -/
def sosoFlowsOf (e : List (String × J)) : List (String × ℚ) × ℚ :=
  match probeArr e ["etfList", "list", "etfs", "funds", "tickers", "details"] with
  | none => (defaultFlows, 0)
  | some l => l.foldl sosoEtfStep (defaultFlows, 0)


/-! ## Data model: flow records and persisted series -/

/-- One day's flow record: ISO date, per-ticker flows in catalog
order, aggregate total. -/
structure Rec where
  date : String
  flows : List (String × ℚ)
  total : ℚ
deriving DecidableEq

/-- The metadata block of a persisted series. -/
structure Metadata where
  description : String
  source : String
  etf_info : List (String × String × String)
  tickers : List String
  last_updated : Option String
deriving DecidableEq

/-- A persisted source series: metadata plus the daily flows. -/
structure Series where
  metadata : Metadata
  daily_flows : List Rec
deriving DecidableEq

/-- Lexicographic code-point comparison of character lists: the order
Python uses when comparing the date strings while sorting. -/
def dleB : List Char → List Char → Bool
  | [], _ => true
  | _ :: _, [] => false
  | a :: as, b :: bs =>
    if a.toNat < b.toNat then true
    else if b.toNat < a.toNat then false
    else dleB as bs

/-- Date order on records (sort key of the merge functions). -/
def byDate (a b : Rec) : Prop := dleB a.date.data b.date.data = true

instance : DecidableRel byDate := fun a b => instDecidableEqBool (dleB a.date.data b.date.data) true

/-- Stable ascending sort by date (model of list.sort with the date
key; Python's sort is stable, as is insertion sort). -/
def sortByDate (l : List Rec) : List Rec := List.insertionSort byDate l

/-! ## fetch_etf_flows.py — assembling response records -/

/-- Model of one iteration of the entry loop of
parse_sosovalue_response (fetch_etf_flows.py, lines 203-269):
entries that are not objects or have no usable date are skipped;
a zero total with a nonzero ETF-level accumulator is replaced by the
rounded accumulator. -/
def sosoEntry : J → Option Rec
  | J.obj e =>
    match sosoDateOf e with
    | none => none
    | some date =>
      let total := sosoTotal e
      let fe := sosoFlowsOf e
      let total2 := if total = 0 ∧ fe.2 ≠ 0 then rnd1 fe.2 else total
      some ⟨date, fe.1, total2⟩
  | _ => none

/-- Model of parse_sosovalue_response (fetch_etf_flows.py, lines
180-272): locate the daily list, build one record per usable entry,
sort ascending by date. -/
def parse_sosovalue_response (data : J) : List Rec :=
  let daily :=
    match data with
    | J.arr l => l
    | J.obj e =>
      match probeArr e ["list", "dataList", "items", "history", "data", "flows"] with
      | some l => l
      | none => []
    | _ => []
  sortByDate (daily.filterMap sosoEntry)

/-! ## fetch_farside_flows.py — table rows to records -/

/-- The SKIP_LABELS set of parse_farside_table (line 315). -/
def skipLabels : List String := ["Seed", "Total", "Average", "Maximum", "Minimum"]

/-- The per-ticker cell loop of parse_farside_table (lines 337-348):
cell i+1 belongs to ticker i; an unparseable or missing cell stores
zero; the boolean result records whether every ticker cell was
pending or missing. -/
def rowFlows (tickers : List String) (i : ℕ) (cells : List String) : List (String × ℚ) × Bool :=
  match tickers with
  | [] => ([], true)
  | t :: ts =>
    let rest := rowFlows ts (i + 1) cells
    match cells.get? (i + 1) with
    | some c =>
      match parse_farside_num c with
      | some v => ((t, v) :: rest.1, false)
      | none => ((t, 0) :: rest.1, rest.2)
    | none => ((t, 0) :: rest.1, rest.2)

/-- Model of the body-row loop of parse_farside_table
(fetch_farside_flows.py, lines 317-369), applied to the stripped cell
texts of one row: skip empty rows, known summary labels, rows whose
first cell has no parseable date, and rows where every ticker cell is
pending; otherwise build the record, taking the total from the column
after the tickers when it parses and the rounded flow sum otherwise. -/
def rowRecord (tickers : List String) (cells : List String) : Option Rec :=
  match cells with
  | [] => none
  | c0 :: _ =>
    let first := pyStrip c0
    if first ∈ skipLabels then none
    else
      match parse_date first with
      | none => none
      | some date =>
        let fp := rowFlows tickers 0 cells
        if fp.2 then none
        else
          let total :=
            match cells.get? (tickers.length + 1) with
            | some tc =>
              match parse_farside_num tc with
              | some v => v
              | none => rnd1 (qsum (fp.1.map Prod.snd))
            | none => rnd1 (qsum (fp.1.map Prod.snd))
          some ⟨date, fp.1, total⟩

/-- The record list extracted from the body rows of one table. -/
def parse_farside_rows (tickers : List String) (rows : List (List String)) : List Rec :=
  rows.filterMap (rowRecord tickers)

/-! ## Merge and persistence -/

/-- The date-to-index map built by both merge_and_save variants
(a dict comprehension over the current list: the last index wins for
a repeated date). -/
def dateIndex : List Rec → String → Option ℕ
  | [], _ => none
  | r :: rs, d =>
    match dateIndex rs d with
    | some j => some (j + 1)
    | none => if r.date = d then some 0 else none

/-- The overwrite guard of the SoSoValue variant (fetch_etf_flows.py,
lines 301-302): replace only when the new record has some nonzero
per-ticker flow or a nonzero total. -/
def etfKeep (r : Rec) : Bool := (r.flows.any fun kv => decide (kv.2 ≠ 0)) || decide (r.total ≠ 0)

/-- The Farside variant has no guard: every date collision is
overwritten (fetch_farside_flows.py, lines 393-395). -/
def farKeep (_ : Rec) : Bool := true

/-- The upsert loop shared by both merge_and_save variants: the index
map is computed once from the starting list; a record whose date is
in the map conditionally overwrites in place, otherwise it is
appended. -/
def mergeLoop (keep : Rec → Bool) (m : String → Option ℕ) : List Rec → List Rec → List Rec
  | L, [] => L
  | L, b :: B =>
    match m b.date with
    | some j => mergeLoop keep m (if keep b then L.set j b else L) B
    | none => mergeLoop keep m (L ++ [b]) B

/-- Upsert a batch into a flows list and re-sort ascending by date. -/
def mergeFlows (keep : Rec → Bool) (S B : List Rec) : List Rec :=
  sortByDate (mergeLoop keep (dateIndex S) S B)

/-- Model of merge_and_save of fetch_etf_flows.py (lines 293-314):
guarded upsert, re-sort, refresh last_updated. -/
def etf_merge_and_save (S : Series) (B : List Rec) (now : String) : Series :=
  { metadata := { S.metadata with last_updated := some now },
    daily_flows := mergeFlows etfKeep S.daily_flows B }

/-- Model of merge_and_save of fetch_farside_flows.py (lines
389-407): unguarded upsert, re-sort, refresh last_updated, and
overwrite the ticker order with this run's header tickers. -/
def farside_merge_and_save (S : Series) (B : List Rec) (now : String) (tickers : List String) : Series :=
  { metadata := { S.metadata with last_updated := some now, tickers := tickers },
    daily_flows := mergeFlows farKeep S.daily_flows B }

/-! ## Spec-side predicate: valid calendar days -/

/-- Whether a year is a leap year in the proleptic Gregorian
calendar. -/
def specLeap (y : ℕ) : Bool := (y % 4 = 0 ∧ y % 100 ≠ 0) ∨ y % 400 = 0

/-- Number of days in a month. -/
def specMonthLen (y m : ℕ) : ℕ :=
  if m = 2 then (if specLeap y then 29 else 28)
  else if m = 4 ∨ m = 6 ∨ m = 9 ∨ m = 11 then 30
  else 31

/-- Modelled from the spec: an ISO string YYYY-MM-DD denotes an
actual calendar day (month between 01 and 12, day within the length
of that month). -/
def specValidCalendarDay (s : String) : Bool :=
  match s.data with
  | [y1, y2, y3, y4, h1, m1, m2, h2, d1, d2] =>
    if ([y1, y2, y3, y4, m1, m2, d1, d2].all isDig ∧ h1 = '-' ∧ h2 = '-') then
      let y := digitsVal [y1, y2, y3, y4]
      let m := digitsVal [m1, m2]
      let d := digitsVal [d1, d2]
      decide (1 ≤ m) && decide (m ≤ 12) && decide (1 ≤ d) && decide (d ≤ specMonthLen y m)
    else false
  | _ => false


/-! ## Concrete fixtures used in witness and counterexample statements -/

/-- A metadata block as load_existing scaffolds it. -/
def sampleMeta : Metadata :=
  ⟨"Bitcoin Spot ETF Daily Net Flows (US$M)", "SoSoValue API", etfInfo, etfTickers, none⟩

/-- A record carrying nonzero per-ticker detail. -/
def recDetail : Rec := ⟨"2026-01-01", [("IBIT", mkRat 1 1)], mkRat 1 1⟩

/-- An all-zero record for the same date. -/
def recZero : Rec := ⟨"2026-01-01", [("IBIT", mkRat 0 1)], mkRat 0 1⟩

/-- Two distinct records sharing one date. -/
def recA : Rec := ⟨"2026-01-05", [("IBIT", mkRat 1 1)], mkRat 1 1⟩

/-- Second record with the date of recA. -/
def recB : Rec := ⟨"2026-01-05", [("IBIT", mkRat 2 1)], mkRat 2 1⟩

/-- The record extracted from the structural-table scenario row. -/
def recRow : Rec := ⟨"2026-01-01", [("A", mkRat 100 10), ("B", mkRat (-50) 10)], mkRat 50 10⟩

/-- A row record whose source-reported total column differs from the
sum of its flows. -/
def recRow75 : Rec := ⟨"2026-01-01", [("A", mkRat 100 10), ("B", mkRat (-50) 10)], mkRat 75 10⟩

/-- A row record from a row with no total column. -/
def recShort : Rec := ⟨"2026-01-01", [("A", mkRat 100 10)], mkRat 100 10⟩

/-- An API entry whose reported total is zero while one fund reports
a nonzero flow. -/
def entryCE : List (String × J) :=
  [("date", J.str "2026-01-02T00:00:00"),
   ("totalNetInflow", J.num (mkRat 0 1)),
   ("etfList", J.arr [J.obj [("name", J.str "IBIT"), ("netInflow", J.num (mkRat 5 1))]])]

/-- A full API response wrapping that entry. -/
def dataCE : J := J.obj [("list", J.arr [J.obj entryCE])]

/-- The record the response parser produces for that entry. -/
def recCE : Rec := ⟨"2026-01-02", setFlow defaultFlows "IBIT" (mkRat 5 1), mkRat 5 1⟩

/-- Coherence of an index map with a record list: every mapped index
holds a record with the mapped date.  The map built from the starting
list stays coherent with the working list throughout the upsert
loop. -/
def Coh (m : String → Option ℕ) (L : List Rec) : Prop :=
  ∀ d j, m d = some j → ∃ a, L.get? j = some a ∧ a.date = d

/-! ## Reachable persisted states -/

/-- The flows lists reachable from the empty series (the scaffold
that load_existing creates on first ingestion) by any sequence of
merges of either source variant, where each merged batch carries
pairwise-distinct dates. -/
inductive ReachableFlows : List Rec → Prop where
  | init : ReachableFlows []
  | stepSoso : ∀ {L : List Rec} (B : List Rec), ReachableFlows L →
      ((B.map Rec.date)).Nodup → ReachableFlows (mergeFlows etfKeep L B)
  | stepFarside : ∀ {L : List Rec} (B : List Rec), ReachableFlows L →
      ((B.map Rec.date)).Nodup → ReachableFlows (mergeFlows farKeep L B)

/-! ## Order facts for the date sort -/

theorem dleB_total : ∀ a b : List Char, dleB a b = true ∨ dleB b a = true := by
  intro a
  induction a with
  | nil => intro b; left; rfl
  | cons x xs ih =>
    intro b
    cases b with
    | nil => right; rfl
    | cons y ys =>
      by_cases h1 : x.toNat < y.toNat
      · left; simp [dleB, h1]
      · by_cases h2 : y.toNat < x.toNat
        · right; simp [dleB, h2]
        · rcases ih ys with h | h
          · left; simp [dleB, h1, h2, h]
          · right; simp [dleB, h1, h2, h]

theorem dleB_trans : ∀ a b c : List Char, dleB a b = true → dleB b c = true → dleB a c = true := by
  intro a
  induction a with
  | nil => intro b c _ _; rfl
  | cons x xs ih =>
    intro b c hab hbc
    cases b with
    | nil => simp [dleB] at hab
    | cons y ys =>
      cases c with
      | nil => simp [dleB] at hbc
      | cons z zs =>
        simp only [dleB] at hab hbc ⊢
        by_cases hxy : x.toNat < y.toNat <;>
          by_cases hyx : y.toNat < x.toNat <;>
          by_cases hyz : y.toNat < z.toNat <;>
          by_cases hzy : z.toNat < y.toNat <;>
          simp_all <;>
          first
            | omega
            | exact Or.inr ⟨by omega, ih ys zs hab hbc⟩


instance : IsTotal Rec byDate := ⟨fun a b => dleB_total a.date.data b.date.data⟩

instance : IsTrans Rec byDate := ⟨fun a b c => dleB_trans a.date.data b.date.data c.date.data⟩

/-! ## Generic list access lemmas -/

theorem get?_some_lt {α : Type} : ∀ (L : List α) (j : ℕ) (a : α), L.get? j = some a → j < L.length := by
  intro L
  induction L with
  | nil => intro j a h; exact Option.noConfusion h
  | cons x xs ih =>
    intro j a h
    cases j with
    | zero => simp
    | succ j' =>
      have := ih j' a h
      simp only [List.length_cons]
      omega

theorem get?_set_eq {α : Type} : ∀ (L : List α) (j : ℕ) (b : α), j < L.length → (L.set j b).get? j = some b := by
  intro L
  induction L with
  | nil => intro j b h; simp at h
  | cons x xs ih =>
    intro j b h
    cases j with
    | zero => rfl
    | succ j' => exact ih j' b (by simpa using h)

theorem get?_set_ne {α : Type} : ∀ (L : List α) (j j' : ℕ) (b : α), j ≠ j' → (L.set j b).get? j' = L.get? j' := by
  intro L
  induction L with
  | nil => intro j j' b _; simp
  | cons x xs ih =>
    intro j j' b hne
    cases j with
    | zero =>
      cases j' with
      | zero => exact absurd rfl hne
      | succ k => rfl
    | succ j0 =>
      cases j' with
      | zero => rfl
      | succ k => exact ih j0 k b (by omega)

theorem set_get?_self {α : Type} : ∀ (L : List α) (j : ℕ) (a : α), L.get? j = some a → L.set j a = L := by
  intro L
  induction L with
  | nil => intro j a h; exact Option.noConfusion h
  | cons x xs ih =>
    intro j a h
    cases j with
    | zero =>
      have hx : x = a := by
        have h0 : some x = some a := h
        injection h0
      rw [hx.symm] at h ⊢
      rfl
    | succ j' =>
      have h1 : xs.get? j' = some a := h
      show x :: xs.set j' a = x :: xs
      rw [ih j' a h1]

theorem filter_set_of_ne {α : Type} (q : α → Bool) :
    ∀ (L : List α) (j : ℕ) (a b : α), L.get? j = some a → q a = false → q b = false →
      (L.set j b).filter q = L.filter q := by
  intro L
  induction L with
  | nil => intro j a b h _ _; exact Option.noConfusion h
  | cons x xs ih =>
    intro j a b h ha hb
    cases j with
    | zero =>
      have hx : x = a := by
        have h0 : some x = some a := h
        injection h0
      subst hx
      show (b :: xs).filter q = (x :: xs).filter q
      simp [List.filter, ha, hb]
    | succ j' =>
      have h1 : xs.get? j' = some a := h
      show (x :: xs.set j' b).filter q = (x :: xs).filter q
      cases hx : q x <;> simp [List.filter, hx, ih j' a b h1 ha hb]

theorem filter_set_singleton {α : Type} (q : α → Bool) :
    ∀ (L : List α) (j : ℕ) (a b c : α), L.get? j = some a → q a = true → q b = true →
      L.filter q = [c] → (L.set j b).filter q = [b] := by
  intro L
  induction L with
  | nil => intro j a b c h _ _ _; exact Option.noConfusion h
  | cons x xs ih =>
    intro j a b c h ha hb hf
    cases j with
    | zero =>
      have hx : x = a := by
        have h0 : some x = some a := h
        injection h0
      subst hx
      simp [List.filter, ha] at hf
      show (b :: xs).filter q = [b]
      simp [List.filter, hb]
      exact hf.2
    | succ j' =>
      have h1 : xs.get? j' = some a := h
      have hmem : a ∈ xs := List.get?_mem h1
      cases hx : q x with
      | true =>
        simp [List.filter, hx] at hf
        have := hf.2 a hmem
        rw [ha] at this
        exact Bool.noConfusion this
      | false =>
        simp [List.filter, hx] at hf
        show (x :: xs.set j' b).filter q = [b]
        simp [List.filter, hx, ih j' a b c h1 ha hb hf]

theorem filter_eq_nil_of_none {α : Type} (q : α → Bool) :
    ∀ L : List α, (∀ x ∈ L, q x = false) → L.filter q = [] := by
  intro L h
  simpa using h

theorem pairwise_ne_of_nodup_map {α β : Type} (f : α → β) :
    ∀ L : List α, (L.map f).Nodup → L.Pairwise fun a b => f a ≠ f b := by
  intro L
  induction L with
  | nil => intro _; exact List.Pairwise.nil
  | cons x xs ih =>
    intro h
    rw [List.map_cons, List.nodup_cons] at h
    exact List.Pairwise.cons
      (fun b hb heq => h.1 (heq ▸ List.mem_map_of_mem f hb))
      (ih h.2)

theorem nodup_map_of_pairwise_ne {α β : Type} (f : α → β) :
    ∀ L : List α, (L.Pairwise fun a b => f a ≠ f b) → (L.map f).Nodup := by
  intro L
  induction L with
  | nil => intro _; simp
  | cons x xs ih =>
    intro h
    rw [List.pairwise_cons] at h
    rw [List.map_cons, List.nodup_cons]
    constructor
    · intro hmem
      rcases List.mem_map.mp hmem with ⟨y, hy, hfy⟩
      exact h.1 y hy hfy.symm
    · exact ih h.2

theorem nodup_unique_filter :
    ∀ (L : List Rec) (j : ℕ) (a : Rec), (L.map Rec.date).Nodup → L.get? j = some a →
      (L.filter fun r => decide (r.date = a.date)) = [a] := by
  intro L
  induction L with
  | nil => intro j a _ h; exact Option.noConfusion h
  | cons x xs ih =>
    intro j a hn h
    rw [List.map_cons, List.nodup_cons] at hn
    cases j with
    | zero =>
      have hx : x = a := by
        have h0 : some x = some a := h
        injection h0
      subst hx
      show (x :: xs).filter (fun r => decide (r.date = x.date)) = [x]
      simp [List.filter]
      exact fun y hy heq => hn.1 (heq ▸ List.mem_map_of_mem Rec.date hy)
    | succ j' =>
      have h1 : xs.get? j' = some a := h
      have hmem : a ∈ xs := List.get?_mem h1
      have hxa : x.date ≠ a.date := fun heq =>
        hn.1 (heq ▸ List.mem_map_of_mem Rec.date hmem)
      show (x :: xs).filter (fun r => decide (r.date = a.date)) = [a]
      simp [List.filter, hxa]
      exact ih j' a hn.2 h1

/-! ## Facts about the date-to-index map -/

theorem dateIndex_none : ∀ (L : List Rec) (d : String), dateIndex L d = none ↔ d ∉ L.map Rec.date := by
  intro L d
  induction L with
  | nil => simp [dateIndex]
  | cons r rs ih =>
    simp only [dateIndex]
    cases h : dateIndex rs d with
    | some j =>
      have hmem : d ∈ rs.map Rec.date := by
        by_contra hc
        rw [ih.mpr hc] at h
        exact Option.noConfusion h
      simp [hmem]
    | none =>
      rw [h] at ih
      have hrs : d ∉ rs.map Rec.date := ih.mp rfl
      by_cases hr : r.date = d
      · simp [hr]
      · simp [hr, hrs]
        exact fun he => hr he.symm

theorem dateIndex_get? : ∀ (L : List Rec) (d : String) (j : ℕ), dateIndex L d = some j →
    ∃ a, L.get? j = some a ∧ a.date = d := by
  intro L d
  induction L with
  | nil => intro j h; exact Option.noConfusion h
  | cons r rs ih =>
    intro j h
    simp only [dateIndex] at h
    cases hr : dateIndex rs d with
    | some j0 =>
      rw [hr] at h
      have hj : j = j0 + 1 := by injection h with h'; omega
      subst hj
      obtain ⟨a, ha, had⟩ := ih j0 hr
      exact ⟨a, ha, had⟩
    | none =>
      rw [hr] at h
      by_cases hd : r.date = d
      · rw [if_pos hd] at h
        have hj : j = 0 := by injection h with h'; omega
        subst hj
        exact ⟨r, rfl, hd⟩
      · rw [if_neg hd] at h
        exact Option.noConfusion h

theorem coh_dateIndex (S : List Rec) : Coh (dateIndex S) S :=
  fun d j h => dateIndex_get? S d j h

theorem coh_set {m : String → Option ℕ} {L : List Rec} (hC : Coh m L) {j : ℕ} {b : Rec}
    (hj : m b.date = some j) : Coh m (L.set j b) := by
  intro d' j' h'
  obtain ⟨a', ha', hd'⟩ := hC d' j' h'
  by_cases hjj : j' = j
  · subst hjj
    obtain ⟨a0, ha0, hd0⟩ := hC b.date j' hj
    rw [ha'] at ha0
    have h0 : a' = a0 := by injection ha0
    refine ⟨b, get?_set_eq L j' b (get?_some_lt L j' a' ha'), ?_⟩
    rw [← hd', h0, hd0]
  · refine ⟨a', ?_, hd'⟩
    rw [get?_set_ne L j j' b fun he => hjj he.symm]
    exact ha'

theorem coh_append {m : String → Option ℕ} {L : List Rec} (hC : Coh m L) (b : Rec) :
    Coh m (L ++ [b]) := by
  intro d j h
  obtain ⟨a, ha, hd⟩ := hC d j h
  refine ⟨a, ?_, hd⟩
  rw [List.get?_append (get?_some_lt L j a ha)]
  exact ha

theorem map_date_set {L : List Rec} {j : ℕ} {b a : Rec} (ha : L.get? j = some a)
    (hd : a.date = b.date) : (L.set j b).map Rec.date = L.map Rec.date := by
  rw [List.map_set]
  apply set_get?_self
  rw [List.get?_map, ha]
  simp [hd]

/-! ## Invariants of the upsert loop -/

theorem loop_filter_frozen (keep : Rec → Bool) (m : String → Option ℕ) (d : String) :
    ∀ (B L : List Rec), Coh m L →
      (∀ b ∈ B, b.date = d → keep b = false ∧ m d ≠ none) →
      (mergeLoop keep m L B).filter (fun r => decide (r.date = d)) =
        L.filter (fun r => decide (r.date = d)) := by
  intro B
  induction B with
  | nil => intro L _ _; rfl
  | cons b rest ih =>
    intro L hC hcond
    simp only [mergeLoop]
    cases hm : m b.date with
    | some j =>
      have hC' : Coh m (if keep b then L.set j b else L) := by
        cases hk : keep b
        · simpa [hk] using hC
        · simpa [hk] using coh_set hC hm
      have hf' : (if keep b then L.set j b else L).filter (fun r => decide (r.date = d)) =
          L.filter (fun r => decide (r.date = d)) := by
        cases hk : keep b
        · simp [hk]
        · have hbd : b.date ≠ d := fun he => by
            have := (hcond b (List.mem_cons_self b rest) he).1
            rw [hk] at this
            exact Bool.noConfusion this
          obtain ⟨a, ha, had⟩ := hC b.date j hm
          have step := filter_set_of_ne (fun r => decide (r.date = d)) L j a b ha
            (by simp [had, hbd]) (by simp [hbd])
          simpa [hk] using step
      rw [ih _ hC' fun b' hb' => hcond b' (List.mem_cons_of_mem b hb'), hf']
    | none =>
      have hbd : b.date ≠ d := fun he => by
        have h2 := (hcond b (List.mem_cons_self b rest) he).2
        rw [he] at hm
        exact h2 hm
      rw [ih _ (coh_append hC b) fun b' hb' => hcond b' (List.mem_cons_of_mem b hb'),
        List.filter_append]
      simp [hbd]

theorem loop_nodup (keep : Rec → Bool) (m : String → Option ℕ) :
    ∀ (B L : List Rec), Coh m L → ((L.map Rec.date)).Nodup →
      (∀ b ∈ B, m b.date = none → b.date ∉ L.map Rec.date) →
      ((B.map Rec.date)).Nodup →
      (((mergeLoop keep m L B).map Rec.date)).Nodup := by
  intro B
  induction B with
  | nil => intro L _ hN _ _; exact hN
  | cons b rest ih =>
    intro L hC hN hnew hB
    rw [List.map_cons, List.nodup_cons] at hB
    simp only [mergeLoop]
    cases hm : m b.date with
    | some j =>
      obtain ⟨a, ha, had⟩ := hC b.date j hm
      have hdates : (if keep b then L.set j b else L).map Rec.date = L.map Rec.date := by
        cases hk : keep b
        · simp [hk]
        · simpa [hk] using map_date_set ha had
      have hC' : Coh m (if keep b then L.set j b else L) := by
        cases hk : keep b
        · simpa [hk] using hC
        · simpa [hk] using coh_set hC hm
      apply ih _ hC' (by rw [hdates]; exact hN) _ hB.2
      intro b' hb' hm'
      rw [hdates]
      exact hnew b' (List.mem_cons_of_mem b hb') hm'
    | none =>
      have hnb : b.date ∉ L.map Rec.date := hnew b (List.mem_cons_self b rest) hm
      have hN' : ((L ++ [b]).map Rec.date).Nodup := by
        rw [List.map_append]
        rw [List.nodup_append]
        refine ⟨hN, by simp, ?_⟩
        intro x hx
        simp
        intro he
        exact hnb (he ▸ hx)
      apply ih _ (coh_append hC b) hN' _ hB.2
      intro b' hb' hm'
      have h1 : b'.date ∉ L.map Rec.date := hnew b' (List.mem_cons_of_mem b hb') hm'
      have h2 : b'.date ≠ b.date := fun he => hB.1 (he ▸ List.mem_map_of_mem Rec.date hb')
      rw [List.map_append]
      intro hmem
      rcases List.mem_append.mp hmem with h | h
      · exact h1 h
      · simp at h
        exact h2 h

theorem loop_filter_batch (keep : Rec → Bool) (m : String → Option ℕ) :
    ∀ (B L : List Rec), Coh m L → ((L.map Rec.date)).Nodup →
      (∀ b ∈ B, m b.date = none → b.date ∉ L.map Rec.date) →
      ((B.map Rec.date)).Nodup →
      ∀ b ∈ B, ∃ c, (mergeLoop keep m L B).filter (fun r => decide (r.date = b.date)) = [c] ∧
        (keep b = true → c = b) := by
  intro B
  induction B with
  | nil => intro L _ _ _ _ b hb; exact absurd hb (List.not_mem_nil b)
  | cons b0 rest ih =>
    intro L hC hN hnew hB b hb
    rw [List.map_cons, List.nodup_cons] at hB
    simp only [mergeLoop]
    rcases List.mem_cons.mp hb with rfl | hbr
    · cases hm : m b.date with
      | some j =>
        obtain ⟨a, ha, had⟩ := hC b.date j hm
        have hfL : L.filter (fun r => decide (r.date = b.date)) = [a] := by
          have h0 := nodup_unique_filter L j a hN ha
          simpa only [had] using h0
        have key : ∃ c, (if keep b then L.set j b else L).filter
            (fun r => decide (r.date = b.date)) = [c] ∧ (keep b = true → c = b) := by
          cases hk : keep b
          · exact ⟨a, by simp [hfL], fun h => Bool.noConfusion h⟩
          · have hss := filter_set_singleton (fun r => decide (r.date = b.date)) L j a b a ha
              (by simp [had]) (by simp) hfL
            exact ⟨b, by simpa using hss, fun _ => rfl⟩
        obtain ⟨c, hc1, hc2⟩ := key
        refine ⟨c, ?_, hc2⟩
        have hC' : Coh m (if keep b then L.set j b else L) := by
          cases hk : keep b
          · simpa [hk] using hC
          · simpa [hk] using coh_set hC hm
        rw [loop_filter_frozen keep m b.date rest _ hC'
          (fun b' hb' he => (hB.1 (he ▸ List.mem_map_of_mem Rec.date hb')).elim), hc1]
      | none =>
        have hnb : b.date ∉ L.map Rec.date := hnew b (List.mem_cons_self b rest) hm
        have hfL : L.filter (fun r => decide (r.date = b.date)) = [] :=
          filter_eq_nil_of_none _ L fun x hx => by
            simp
            exact fun he => hnb (he ▸ List.mem_map_of_mem Rec.date hx)
        refine ⟨b, ?_, fun _ => rfl⟩
        rw [loop_filter_frozen keep m b.date rest _ (coh_append hC b)
          (fun b' hb' he => (hB.1 (he ▸ List.mem_map_of_mem Rec.date hb')).elim)]
        rw [List.filter_append, hfL]
        simp
    · cases hm : m b0.date with
      | some j =>
        obtain ⟨a, ha, had⟩ := hC b0.date j hm
        have hdates : (if keep b0 then L.set j b0 else L).map Rec.date = L.map Rec.date := by
          cases hk : keep b0
          · simp
          · simpa using map_date_set ha had
        have hC' : Coh m (if keep b0 then L.set j b0 else L) := by
          cases hk : keep b0
          · simpa [hk] using hC
          · simpa [hk] using coh_set hC hm
        exact ih _ hC' (by rw [hdates]; exact hN)
          (fun b' hb' hm' => by
            rw [hdates]
            exact hnew b' (List.mem_cons_of_mem b0 hb') hm') hB.2 b hbr
      | none =>
        have hnb : b0.date ∉ L.map Rec.date := hnew b0 (List.mem_cons_self b0 rest) hm
        have hN' : ((L ++ [b0]).map Rec.date).Nodup := by
          rw [List.map_append, List.nodup_append]
          refine ⟨hN, by simp, ?_⟩
          intro x hx
          simp
          intro he
          exact hnb (he ▸ hx)
        exact ih _ (coh_append hC b0) hN'
          (fun b' hb' hm' => by
            have h1 : b'.date ∉ L.map Rec.date := hnew b' (List.mem_cons_of_mem b0 hb') hm'
            have h2 : b'.date ≠ b0.date :=
              fun he => hB.1 (he ▸ List.mem_map_of_mem Rec.date hb')
            rw [List.map_append]
            intro hmem
            rcases List.mem_append.mp hmem with h | h
            · exact h1 h
            · simp at h
              exact h2 h) hB.2 b hbr

theorem loop_id (keep : Rec → Bool) :
    ∀ (B T : List Rec),
      (∀ b ∈ B, ∃ j c, dateIndex T b.date = some j ∧ T.get? j = some c ∧ (keep b = true → c = b)) →
      mergeLoop keep (dateIndex T) T B = T := by
  intro B
  induction B with
  | nil => intro T _; rfl
  | cons b rest ih =>
    intro T h
    obtain ⟨j, c, hj, hc, hk⟩ := h b (List.mem_cons_self b rest)
    simp only [mergeLoop]
    rw [hj]
    have hstep : (if keep b then T.set j b else T) = T := by
      cases hk2 : keep b
      · simp
      · have hcb : c = b := hk hk2
        simp only [if_pos rfl]
        rw [← hcb]
        exact set_get?_self T j c hc
    show mergeLoop keep (dateIndex T) (if keep b then T.set j b else T) rest = T
    rw [hstep]
    exact ih T fun b' hb' => h b' (List.mem_cons_of_mem b hb')

/-! ## Sort-level facts -/

theorem sortByDate_perm (l : List Rec) : (sortByDate l).Perm l :=
  List.perm_insertionSort byDate l

theorem sortByDate_sorted (l : List Rec) : List.Sorted byDate (sortByDate l) :=
  List.sorted_insertionSort byDate l

/-! ## Merge-level theorems -/

theorem mergeFlows_filter_singleton (keep : Rec → Bool) (S B : List Rec)
    (hS : ((S.map Rec.date)).Nodup) (hB : ((B.map Rec.date)).Nodup) :
    ∀ b ∈ B, ∃ c, (mergeFlows keep S B).filter (fun r => decide (r.date = b.date)) = [c] ∧
      (keep b = true → c = b) := by
  intro b hb
  have hnew : ∀ x ∈ B, dateIndex S x.date = none → x.date ∉ S.map Rec.date :=
    fun x _ h => (dateIndex_none S x.date).mp h
  obtain ⟨c, hc1, hc2⟩ :=
    loop_filter_batch keep (dateIndex S) B S (coh_dateIndex S) hS hnew hB b hb
  refine ⟨c, ?_, hc2⟩
  exact List.perm_singleton.mp
    ((List.Perm.filter _ (sortByDate_perm (mergeLoop keep (dateIndex S) S B))).trans
      (hc1 ▸ List.Perm.refl _))

theorem mergeFlows_idem (keep : Rec → Bool) (S B : List Rec)
    (hS : ((S.map Rec.date)).Nodup) (hB : ((B.map Rec.date)).Nodup) :
    mergeFlows keep (mergeFlows keep S B) B = mergeFlows keep S B := by
  have hfacts : ∀ b ∈ B, ∃ j c, dateIndex (mergeFlows keep S B) b.date = some j ∧
      (mergeFlows keep S B).get? j = some c ∧ (keep b = true → c = b) := by
    intro b hb
    obtain ⟨c, hfT, hc2⟩ := mergeFlows_filter_singleton keep S B hS hB b hb
    have hcT : c ∈ mergeFlows keep S B := by
      have : c ∈ (mergeFlows keep S B).filter (fun r => decide (r.date = b.date)) := by
        rw [hfT]
        exact List.mem_singleton_self c
      exact (List.mem_filter.mp this).1
    have hcd : c.date = b.date := by
      have : c ∈ (mergeFlows keep S B).filter (fun r => decide (r.date = b.date)) := by
        rw [hfT]
        exact List.mem_singleton_self c
      simpa using (List.mem_filter.mp this).2
    have hmemd : b.date ∈ (mergeFlows keep S B).map Rec.date :=
      hcd ▸ List.mem_map_of_mem Rec.date hcT
    cases hix : dateIndex (mergeFlows keep S B) b.date with
    | none => exact (((dateIndex_none _ b.date).mp hix) hmemd).elim
    | some j =>
      obtain ⟨a, ha, had⟩ := dateIndex_get? _ b.date j hix
      have haT : a ∈ (mergeFlows keep S B).filter (fun r => decide (r.date = b.date)) :=
        List.mem_filter.mpr ⟨List.get?_mem ha, by simp [had]⟩
      rw [hfT] at haT
      have hac : a = c := by simpa using haT
      exact ⟨j, c, rfl, hac ▸ ha, hc2⟩
  have hid := loop_id keep B (mergeFlows keep S B) hfacts
  show sortByDate (mergeLoop keep (dateIndex (mergeFlows keep S B)) (mergeFlows keep S B) B) =
    mergeFlows keep S B
  rw [hid]
  exact List.Sorted.insertionSort_eq (sortByDate_sorted (mergeLoop keep (dateIndex S) S B))

theorem mergeFlows_pairwise (keep : Rec → Bool) (S B : List Rec)
    (hS : ((S.map Rec.date)).Nodup) (hB : ((B.map Rec.date)).Nodup) :
    (mergeFlows keep S B).Pairwise fun a b => byDate a b ∧ a.date ≠ b.date := by
  have hnew : ∀ x ∈ B, dateIndex S x.date = none → x.date ∉ S.map Rec.date :=
    fun x _ h => (dateIndex_none S x.date).mp h
  have hnod := loop_nodup keep (dateIndex S) B S (coh_dateIndex S) hS hnew hB
  have hperm := sortByDate_perm (mergeLoop keep (dateIndex S) S B)
  have hnodT : ((mergeFlows keep S B).map Rec.date).Nodup :=
    ((hperm.map Rec.date).nodup_iff).mpr hnod
  have hsorted : List.Sorted byDate (mergeFlows keep S B) :=
    sortByDate_sorted (mergeLoop keep (dateIndex S) S B)
  exact List.Pairwise.and hsorted (pairwise_ne_of_nodup_map Rec.date _ hnodT)

theorem pairwise_nodup_dates {L : List Rec}
    (h : L.Pairwise fun a b => byDate a b ∧ a.date ≠ b.date) : ((L.map Rec.date)).Nodup :=
  nodup_map_of_pairwise_ne Rec.date L (h.imp fun hab => hab.2)


/-! ## Facts about row extraction -/

theorem rowFlows_pending (cells : List String) :
    ∀ (tickers : List String) (i : ℕ),
      (∀ k, k < tickers.length → ∀ c, cells.get? (i + k + 1) = some c →
        parse_farside_num c = none) →
      (rowFlows tickers i cells).2 = true := by
  intro tickers
  induction tickers with
  | nil => intro i _; rfl
  | cons t ts ih =>
    intro i h
    have hrest : (rowFlows ts (i + 1) cells).2 = true := by
      apply ih (i + 1)
      intro k hk c hc
      have : i + 1 + k + 1 = i + (k + 1) + 1 := by omega
      exact h (k + 1) (by simpa using Nat.succ_lt_succ hk) c (by rw [← this]; exact hc)
    simp only [rowFlows]
    cases hg : cells.get? (i + 1) with
    | none => simpa using hrest
    | some c =>
      have hp : parse_farside_num c = none := by
        have h0 := h 0 (by simp) c
        simp at h0
        exact h0 (by simpa using hg)
      simp [hp]
      exact hrest

theorem rowRecord_skip_label (tickers : List String) (c0 : String) (cs : List String)
    (h : pyStrip c0 ∈ skipLabels) : rowRecord tickers (c0 :: cs) = none := by
  simp only [rowRecord]
  rw [if_pos h]

theorem rowRecord_skip_date (tickers : List String) (c0 : String) (cs : List String)
    (h : parse_date (pyStrip c0) = none) : rowRecord tickers (c0 :: cs) = none := by
  simp only [rowRecord]
  by_cases h1 : pyStrip c0 ∈ skipLabels
  · rw [if_pos h1]
  · rw [if_neg h1, h]

theorem rowRecord_skip_pending (tickers : List String) (cells : List String)
    (h : ∀ k, k < tickers.length → ∀ c, cells.get? (k + 1) = some c →
      parse_farside_num c = none) :
    rowRecord tickers cells = none := by
  cases cells with
  | nil => rfl
  | cons c0 cs =>
    simp only [rowRecord]
    by_cases h1 : pyStrip c0 ∈ skipLabels
    · rw [if_pos h1]
    · rw [if_neg h1]
      cases h2 : parse_date (pyStrip c0) with
      | none => rfl
      | some date =>
        have hp : (rowFlows tickers 0 (c0 :: cs)).2 = true := by
          apply rowFlows_pending (c0 :: cs) tickers 0
          intro k hk c hc
          exact h k hk c (by simpa using hc)
        simp [hp]

theorem rowRecord_total (tickers : List String) (cells : List String) (rec : Rec)
    (h : rowRecord tickers cells = some rec) :
    (∀ tc v, cells.get? (tickers.length + 1) = some tc → parse_farside_num tc = some v →
      rec.total = v) ∧
    (∀ tc, cells.get? (tickers.length + 1) = some tc → parse_farside_num tc = none →
      rec.total = rnd1 (qsum (rec.flows.map Prod.snd))) ∧
    (cells.get? (tickers.length + 1) = none →
      rec.total = rnd1 (qsum (rec.flows.map Prod.snd))) := by
  cases cells with
  | nil => exact Option.noConfusion h
  | cons c0 cs =>
    simp only [rowRecord] at h
    by_cases h1 : pyStrip c0 ∈ skipLabels
    · rw [if_pos h1] at h
      exact Option.noConfusion h
    · rw [if_neg h1] at h
      cases h2 : parse_date (pyStrip c0) with
      | none =>
        rw [h2] at h
        exact Option.noConfusion h
      | some date =>
        rw [h2] at h
        by_cases h3 : (rowFlows tickers 0 (c0 :: cs)).2 = true
        · simp [h3] at h
        · simp only [h3] at h
          simp at h
          have hfl : rec.flows = (rowFlows tickers 0 (c0 :: cs)).1 := by rw [← h]
          cases h4 : (c0 :: cs).get? (tickers.length + 1) with
          | none =>
            have h4' : cs[tickers.length]? = none := by simpa using h4
            rw [h4'] at h
            refine ⟨fun tc v htc _ => Option.noConfusion htc,
              fun tc htc _ => Option.noConfusion htc, fun _ => ?_⟩
            rw [hfl, ← h]
          | some tc =>
            have h4' : cs[tickers.length]? = some tc := by simpa using h4
            rw [h4'] at h
            have h6 : rec.total = (match parse_farside_num tc with
                | some v => v
                | none => rnd1 (qsum ((rowFlows tickers 0 (c0 :: cs)).1.map Prod.snd))) := by
              rw [← h]
            cases h5 : parse_farside_num tc with
            | none =>
              rw [h5] at h6
              have h7 : rec.total =
                  rnd1 (qsum ((rowFlows tickers 0 (c0 :: cs)).1.map Prod.snd)) := h6
              refine ⟨?_, ?_, fun hn => Option.noConfusion hn⟩
              · intro tc' v htc hv
                have htc' : tc' = tc := by
                  injection htc with he
                  exact he.symm
                rw [htc', h5] at hv
                exact Option.noConfusion hv
              · intro tc' _ _
                rw [hfl]
                exact h7
            | some v =>
              rw [h5] at h6
              have h7 : rec.total = v := h6
              refine ⟨?_, ?_, fun hn => Option.noConfusion hn⟩
              · intro tc' v' htc hv
                have htc' : tc' = tc := by
                  injection htc with he
                  exact he.symm
                rw [htc', h5] at hv
                have hv' : v' = v := by
                  injection hv with he2
                  exact he2.symm
                rw [hv']
                exact h7
              · intro tc' htc hv
                have htc' : tc' = tc := by
                  injection htc with he
                  exact he.symm
                rw [htc', h5] at hv
                exact Option.noConfusion hv

theorem sosoEntry_total (e : List (String × J)) (rec : Rec)
    (h : sosoEntry (J.obj e) = some rec) :
    rec.total = if sosoTotal e = 0 ∧ (sosoFlowsOf e).2 ≠ 0
      then rnd1 (sosoFlowsOf e).2 else sosoTotal e := by
  simp only [sosoEntry] at h
  cases h0 : sosoDateOf e with
  | none =>
    rw [h0] at h
    exact Option.noConfusion h
  | some date =>
    rw [h0] at h
    have hrec : rec = ⟨date, (sosoFlowsOf e).1,
        if sosoTotal e = 0 ∧ (sosoFlowsOf e).2 ≠ 0
          then rnd1 (sosoFlowsOf e).2 else sosoTotal e⟩ := by
      injection h with h'
      exact h'.symm
    rw [hrec]

/-! ## Shape of parsed dates -/

theorem isDig_bounds {c : Char} (h : isDig c = true) : 48 ≤ c.toNat ∧ c.toNat ≤ 57 := by
  simp [isDig] at h
  exact h

theorem takeDay_le99 : ∀ (l : List Char) (n : ℕ) (r : List Char),
    takeDay l = some (n, r) → n ≤ 99 := by
  intro l n r h
  cases l with
  | nil => exact Option.noConfusion h
  | cons c cs =>
    simp only [takeDay] at h
    by_cases hc : isDig c = true
    · rw [if_pos hc] at h
      obtain ⟨hc1, hc2⟩ := isDig_bounds hc
      cases cs with
      | nil =>
        injection h with h'
        have : n = c.toNat - 48 := by
          have := congrArg Prod.fst h'
          simpa [digitsVal] using this.symm
        omega
      | cons d ds =>
        have h0 : (if isDig d = true then some (digitsVal [c, d], ds)
            else some (digitsVal [c], d :: ds)) = some (n, r) := h
        by_cases hd : isDig d = true
        · rw [if_pos hd] at h0
          obtain ⟨hd1, hd2⟩ := isDig_bounds hd
          injection h0 with h'
          have : n = (c.toNat - 48) * 10 + (d.toNat - 48) := by
            have := congrArg Prod.fst h'
            simpa [digitsVal] using this.symm
          omega
        · rw [if_neg hd] at h0
          injection h0 with h'
          have : n = c.toNat - 48 := by
            have := congrArg Prod.fst h'
            simpa [digitsVal] using this.symm
          omega
    · rw [if_neg hc] at h
      exact Option.noConfusion h

theorem takeMonth_mem : ∀ (tbl : List (String × String)) (l : List Char) (code : String)
    (r : List Char), takeMonth tbl l = some (code, r) → code ∈ tbl.map Prod.snd := by
  intro tbl
  induction tbl with
  | nil => intro l code r h; exact Option.noConfusion h
  | cons nc tbl ih =>
    intro l code r h
    simp only [takeMonth] at h
    by_cases h1 : lstarts nc.1.data l = true
    · rw [if_pos h1] at h
      injection h with h'
      have hc : code = nc.2 := (congrArg Prod.fst h').symm
      rw [List.map_cons, hc]
      exact List.mem_cons_self nc.2 (tbl.map Prod.snd)
    · rw [if_neg h1] at h
      rw [List.map_cons]
      exact List.mem_cons_of_mem nc.2 (ih l code r h)

theorem takeYear_shape : ∀ (l ys r : List Char), takeYear l = some (ys, r) →
    ys.length = 4 ∧ ys.all isDig = true := by
  intro l ys r h
  match l with
  | [] => exact Option.noConfusion h
  | [a] => exact Option.noConfusion h
  | [a, b] => exact Option.noConfusion h
  | [a, b, c] => exact Option.noConfusion h
  | a :: b :: c :: d :: rest =>
    simp only [takeYear] at h
    by_cases hd : (isDig a && isDig b && isDig c && isDig d) = true
    · rw [if_pos hd] at h
      injection h with h'
      have hys : ys = [a, b, c, d] := (congrArg Prod.fst h').symm
      simp at hd
      simp [hys, hd.1, hd.2]
    · rw [if_neg hd] at h
      exact Option.noConfusion h

theorem tryDate_shape (l : List Char) (day : ℕ) (code : String) (ys : List Char)
    (h : tryDate l = some (day, code, ys)) :
    day ≤ 99 ∧ code ∈ monthTable.map Prod.snd ∧ ys.length = 4 ∧ ys.all isDig = true := by
  simp only [tryDate] at h
  split at h
  · exact Option.noConfusion h
  · rename_i dr d0 r1 h1
    split at h
    · exact Option.noConfusion h
    · rename_i r2 h2
      split at h
      · exact Option.noConfusion h
      · rename_i cr code0 r3 h3
        split at h
        · exact Option.noConfusion h
        · rename_i r4 h4
          split at h
          · exact Option.noConfusion h
          · rename_i yr ys0 r5 h5
            injection h with h'
            have hday : day = d0 := (congrArg (fun t => t.1) h').symm
            have hcode : code = code0 := by
              have := congrArg (fun t => t.2.1) h'
              exact this.symm
            have hys : ys = ys0 := by
              have := congrArg (fun t => t.2.2) h'
              exact this.symm
            refine ⟨?_, ?_, ?_⟩
            · rw [hday]
              exact takeDay_le99 l d0 r1 h1
            · rw [hcode]
              exact takeMonth_mem monthTable r2 code0 r3 h3
            · rw [hys]
              exact takeYear_shape r4 ys0 r5 h5

theorem searchDate_shape : ∀ (l : List Char) (day : ℕ) (code : String) (ys : List Char),
    searchDate l = some (day, code, ys) →
    day ≤ 99 ∧ code ∈ monthTable.map Prod.snd ∧ ys.length = 4 ∧ ys.all isDig = true := by
  intro l
  induction l with
  | nil => intro day code ys h; exact Option.noConfusion h
  | cons c cs ih =>
    intro day code ys h
    simp only [searchDate] at h
    cases h1 : tryDate (c :: cs) with
    | some r =>
      rw [h1] at h
      injection h with h'
      subst h'
      exact tryDate_shape (c :: cs) day code ys h1
    | none =>
      rw [h1] at h
      exact ih day code ys h

/-! ## Claim theorems -/

/-- C1 (amended): in the SoSoValue merge variant, merging a batch whose
records for a given date are all-zero (zero per-ticker flows and zero
total) leaves the stored record for that date unchanged when that date
already holds a record with nonzero detail; the Farside variant has no
such guard and unconditionally replaces the stored record for a batch
date with the batch record. -/
theorem merge_zero_preserves_detail :
    (∀ (S : Series) (B : List Rec) (d now : String) (old r : Rec),
      S.daily_flows.filter (fun x => decide (x.date = d)) = [old] →
      (∃ kv ∈ old.flows, kv.2 ≠ 0) →
      r ∈ B → r.date = d →
      (∀ b ∈ B, b.date = d → (∀ kv ∈ b.flows, kv.2 = 0) ∧ b.total = 0) →
      (etf_merge_and_save S B now).daily_flows.filter (fun x => decide (x.date = d)) = [old]) ∧
    (∀ (S : Series) (B : List Rec) (now : String) (tickers : List String) (r : Rec),
      ((S.daily_flows.map Rec.date)).Nodup → ((B.map Rec.date)).Nodup → r ∈ B →
      (farside_merge_and_save S B now tickers).daily_flows.filter
        (fun x => decide (x.date = r.date)) = [r]) := by
  constructor
  · intro S B d now old r hstored hdetail hrB hrd hbatch
    have hkeep : ∀ b ∈ B, b.date = d → etfKeep b = false := by
      intro b hb hbd
      obtain ⟨hz, ht⟩ := hbatch b hb hbd
      simp [etfKeep, ht]
      intro k v hkv
      exact hz (k, v) hkv
    have hold : old ∈ S.daily_flows ∧ old.date = d := by
      have hmem : old ∈ S.daily_flows.filter (fun x => decide (x.date = d)) := by
        rw [hstored]
        exact List.mem_singleton_self old
      have h2 := List.mem_filter.mp hmem
      exact ⟨h2.1, by simpa using h2.2⟩
    have hdmem : d ∈ S.daily_flows.map Rec.date :=
      hold.2 ▸ List.mem_map_of_mem Rec.date hold.1
    have hmnone : dateIndex S.daily_flows d ≠ none :=
      fun h => (dateIndex_none _ d).mp h hdmem
    have hfrozen := loop_filter_frozen etfKeep (dateIndex S.daily_flows) d B S.daily_flows
      (coh_dateIndex _) (fun b hb hbd => ⟨hkeep b hb hbd, hmnone⟩)
    have hp := List.Perm.filter (fun x => decide (x.date = d))
      (sortByDate_perm (mergeLoop etfKeep (dateIndex S.daily_flows) S.daily_flows B))
    rw [hfrozen, hstored] at hp
    exact List.perm_singleton.mp hp
  · intro S B now tickers r hS hB hrB
    obtain ⟨c, hc1, hc2⟩ := mergeFlows_filter_singleton farKeep S.daily_flows B hS hB r hrB
    rw [hc2 rfl] at hc1
    exact hc1

/-- Witness for C1: one all-zero record colliding with stored nonzero
detail is kept by the SoSoValue merge and overwritten by the Farside
merge. -/
theorem merge_zero_preserves_detail_witness :
    (etf_merge_and_save ⟨sampleMeta, [recDetail]⟩ [recZero] "t").daily_flows.filter
      (fun x => decide (x.date = "2026-01-01")) = [recDetail] ∧
    (farside_merge_and_save ⟨sampleMeta, [recDetail]⟩ [recZero] "t" ["IBIT"]).daily_flows.filter
      (fun x => decide (x.date = recZero.date)) = [recZero] :=
  ⟨merge_zero_preserves_detail.1 ⟨sampleMeta, [recDetail]⟩ [recZero] "2026-01-01" "t"
      recDetail recZero (by decide) (by decide) (by decide) (by decide) (by decide),
    merge_zero_preserves_detail.2 ⟨sampleMeta, [recDetail]⟩ [recZero] "t" ["IBIT"] recZero
      (by decide) (by decide) (by decide)⟩

/-- Counterexample for C1 as stated: the Farside merge replaces a
stored record that has nonzero detail with an all-zero record for the
same date. -/
theorem farside_merge_zero_overwrites_cex :
    (farside_merge_and_save ⟨sampleMeta, [recDetail]⟩ [recZero] "t" ["IBIT"]).daily_flows =
      [recZero] ∧ recZero ≠ recDetail := by decide

/-- C2 (amended): every persisted flows list reachable from the empty
series by merges of either variant whose batches carry pairwise
distinct dates is strictly ascending by date — sorted with at most one
record per date. -/
theorem reachable_sorted_nodup : ∀ L : List Rec, ReachableFlows L →
    L.Pairwise fun a b => byDate a b ∧ a.date ≠ b.date := by
  intro L h
  induction h with
  | init => exact List.Pairwise.nil
  | stepSoso B hR hB ih => exact mergeFlows_pairwise etfKeep _ B (pairwise_nodup_dates ih) hB
  | stepFarside B hR hB ih => exact mergeFlows_pairwise farKeep _ B (pairwise_nodup_dates ih) hB

/-- Witness for C2 at a one-step reachable state. -/
theorem reachable_sorted_nodup_witness :
    (mergeFlows etfKeep [] [recDetail]).Pairwise fun a b => byDate a b ∧ a.date ≠ b.date :=
  reachable_sorted_nodup _ (ReachableFlows.stepSoso [recDetail] ReachableFlows.init (by decide))

/-- Counterexample for C2 as stated: merging one batch that repeats a
date into the empty series stores two records with the same date, so
the at-most-one-record-per-date invariant fails for arbitrary
batches. -/
theorem merge_duplicate_batch_cex :
    ¬ (mergeFlows etfKeep [] [recA, recB]).Pairwise
      fun a b => byDate a b ∧ a.date ≠ b.date := by
  intro hp
  have hev : mergeFlows etfKeep [] [recA, recB] = [recA, recB] := by decide
  rw [hev] at hp
  have h1 := (List.pairwise_cons.mp hp).1 recB (List.mem_cons_self recB [])
  exact h1.2 rfl

/-- C3 (amended): on series and batches with pairwise-distinct dates,
both merge variants are idempotent — merging the same batch a second
time yields the very same series (the timestamp argument of the last
merge is the one stored either way); with a repeated date inside one
batch the SoSoValue variant is not idempotent. -/
theorem merge_idempotent : ∀ (S : Series) (B : List Rec) (t1 t2 : String) (tk : List String),
    ((S.daily_flows.map Rec.date)).Nodup → ((B.map Rec.date)).Nodup →
    etf_merge_and_save (etf_merge_and_save S B t1) B t2 = etf_merge_and_save S B t2 ∧
    farside_merge_and_save (farside_merge_and_save S B t1 tk) B t2 tk =
      farside_merge_and_save S B t2 tk := by
  intro S B t1 t2 tk hS hB
  constructor
  · simp only [etf_merge_and_save]
    rw [mergeFlows_idem etfKeep S.daily_flows B hS hB]
  · simp only [farside_merge_and_save]
    rw [mergeFlows_idem farKeep S.daily_flows B hS hB]

/-- Witness for C3 on a singleton batch. -/
theorem merge_idempotent_witness :
    etf_merge_and_save (etf_merge_and_save ⟨sampleMeta, []⟩ [recDetail] "t1") [recDetail] "t2" =
      etf_merge_and_save ⟨sampleMeta, []⟩ [recDetail] "t2" ∧
    farside_merge_and_save (farside_merge_and_save ⟨sampleMeta, []⟩ [recDetail] "t1" ["IBIT"])
        [recDetail] "t2" ["IBIT"] =
      farside_merge_and_save ⟨sampleMeta, []⟩ [recDetail] "t2" ["IBIT"] :=
  merge_idempotent ⟨sampleMeta, []⟩ [recDetail] "t1" "t2" ["IBIT"] (by decide) (by decide)

/-- Counterexample for C3 as stated: a batch repeating one date (a
nonzero record followed by an all-zero record) merged twice into the
empty series by the SoSoValue variant yields different daily flows
than merging it once. -/
theorem merge_idempotent_cex :
    (etf_merge_and_save (etf_merge_and_save ⟨sampleMeta, []⟩ [recDetail, recZero] "x")
        [recDetail, recZero] "x").daily_flows ≠
      (etf_merge_and_save ⟨sampleMeta, []⟩ [recDetail, recZero] "x").daily_flows := by decide

/-- C4 (amended): a record emitted by the Farside positional parser
carries the parsed total cell when that column is present and
parseable, and the rounded sum of its per-ticker flows otherwise; a
record emitted by the API-response parser carries the normalised
source total except that a zero source total is replaced by the
rounded per-ETF accumulator whenever that accumulator is nonzero. -/
theorem record_total_rule :
    (∀ (tickers : List String) (cells : List String) (rec : Rec),
      rowRecord tickers cells = some rec →
      (∀ tc v, cells.get? (tickers.length + 1) = some tc → parse_farside_num tc = some v →
        rec.total = v) ∧
      (∀ tc, cells.get? (tickers.length + 1) = some tc → parse_farside_num tc = none →
        rec.total = rnd1 (qsum (rec.flows.map Prod.snd))) ∧
      (cells.get? (tickers.length + 1) = none →
        rec.total = rnd1 (qsum (rec.flows.map Prod.snd)))) ∧
    (∀ (e : List (String × J)) (rec : Rec),
      sosoEntry (J.obj e) = some rec →
      rec.total = if sosoTotal e = 0 ∧ (sosoFlowsOf e).2 ≠ 0
        then rnd1 (sosoFlowsOf e).2 else sosoTotal e) :=
  ⟨fun tickers cells rec h => rowRecord_total tickers cells rec h,
   fun e rec h => sosoEntry_total e rec h⟩

/-- Witness for C4: a row whose total column (7.5) differs from its
rounded flow sum (5.0) stores the parsed column, a row without a
total column stores the rounded flow sum, and the zero-total API
entry follows the accumulator rule. -/
theorem record_total_rule_witness :
    recRow75.total = mkRat 75 10 ∧
    recShort.total = rnd1 (qsum (recShort.flows.map Prod.snd)) ∧
    recCE.total = (if sosoTotal entryCE = 0 ∧ (sosoFlowsOf entryCE).2 ≠ 0
      then rnd1 (sosoFlowsOf entryCE).2 else sosoTotal entryCE) :=
  ⟨(record_total_rule.1 ["A", "B"] ["01 Jan 2026", "10.0", "(5.0)", "7.5"] recRow75
      (by decide)).1 "7.5" (mkRat 75 10) (by decide) (by decide),
   (record_total_rule.1 ["A"] ["01 Jan 2026", "10.0"] recShort
      (by decide)).2.2 (by decide),
   record_total_rule.2 entryCE recCE (by decide)⟩

/-- Counterexample for C4 as stated: the API entry of dataCE reports a
present, parseable total of zero, yet the emitted record's total is 5
(the rounded per-ETF accumulator), not the source-reported total. -/
theorem soso_zero_total_cex :
    sosoTotal entryCE = 0 ∧
    (parse_sosovalue_response dataCE).map Rec.total = [mkRat 5 1] ∧
    mkRat 5 1 ≠ (0 : ℚ) := by decide

/-- C5 (amended): table extraction emits no record for a row whose
label is a known summary label, whose first cell has no parseable
date, or whose ticker cells are all pending or missing; in the
two-row scenario, with the row dates written in the DD Mon YYYY
grammar that the Farside parser accepts, extraction yields exactly
the single record of the first row and drops the all-pending second
row. -/
theorem row_extraction_rules :
    (∀ (tickers : List String) (c0 : String) (cs : List String),
      pyStrip c0 ∈ skipLabels → rowRecord tickers (c0 :: cs) = none) ∧
    (∀ (tickers : List String) (c0 : String) (cs : List String),
      parse_date (pyStrip c0) = none → rowRecord tickers (c0 :: cs) = none) ∧
    (∀ (tickers : List String) (cells : List String),
      (∀ k, k < tickers.length → ∀ c, cells.get? (k + 1) = some c →
        parse_farside_num c = none) →
      rowRecord tickers cells = none) ∧
    parse_farside_rows ["A", "B"]
      [["01 Jan 2026", "10.0", "(5.0)", "5.0"], ["02 Jan 2026", "-", "-", "-"]] = [recRow] :=
  ⟨fun tickers c0 cs h => rowRecord_skip_label tickers c0 cs h,
   fun tickers c0 cs h => rowRecord_skip_date tickers c0 cs h,
   fun tickers cells h => rowRecord_skip_pending tickers cells h,
   by decide⟩

/-- Witness for C5: a summary-labelled row and an all-pending row are
both dropped. -/
theorem row_extraction_rules_witness :
    rowRecord ["A", "B"] ["Total", "10.0", "(5.0)", "5.0"] = none ∧
    rowRecord ["A", "B"] ["02 Jan 2026", "-", "-", "-"] = none :=
  ⟨row_extraction_rules.1 ["A", "B"] "Total" ["10.0", "(5.0)", "5.0"] (by decide),
   row_extraction_rules.2.2.1 ["A", "B"] ["02 Jan 2026", "-", "-", "-"] (by
     intro k hk c hc
     match k with
     | 0 =>
       have h0 : "-" = c := by injection hc
       rw [← h0]
       decide
     | 1 =>
       have h0 : "-" = c := by injection hc
       rw [← h0]
       decide
     | n + 2 =>
       exact absurd hk (by
         simp only [List.length_cons, List.length_nil]
         omega))⟩

/-- Counterexample for C5 as stated: with the scenario's literal row
dates in the Mon DD, YYYY grammar, the Farside date parser rejects
both first cells, so extraction yields no record at all rather than
the claimed single record. -/
theorem row_extraction_scenario_cex :
    parse_farside_rows ["A", "B"]
      [["Jan 01, 2026", "10.0", "(5.0)", "5.0"], ["Jan 02, 2026", "-", "-", "-"]] ≠
    [recRow] := by decide

/-- C6: the flow-value parser maps a parenthesised magnitude to its
negation, a dash or em-dash to the pending marker, and strips
thousands separators and asterisk annotations before the numeric
parse. -/
theorem parse_flow_value_spec :
    parse_farside_num "(44.5)" = some (-44.5 : ℚ) ∧
    parse_farside_num "-" = none ∧
    parse_farside_num "—" = none ∧
    parse_farside_num "9,199*" = some (9199 : ℚ) := by
  refine ⟨?_, by decide, by decide, ?_⟩
  · have h : parse_farside_num "(44.5)" = some (mkRat (-445) 10) := by decide
    rw [h]
    norm_num [Rat.mkRat_eq_div]
  · have h : parse_farside_num "9,199*" = some (mkRat 9199 1) := by decide
    rw [h]
    norm_num [Rat.mkRat_eq_div]

/-- C7 (amended): the textual grammar the code supports is
DD Mon YYYY (Farside); malformed input yields absent; the API date
path takes numeric epochs, in seconds or milliseconds disambiguated
by magnitude, and the first ten characters of ISO-prefixed strings;
Mon DD, YYYY is not a supported grammar — the Farside parser yields
absent on it. -/
theorem date_grammar_rule :
    parse_date "23 Jan 2026" = some "2026-01-23" ∧
    parse_date "N/A" = none ∧
    parse_date "Feb 04, 2026" = none ∧
    sosoDateOf [("date", J.num (mkRat 1770163200 1))] = some "2026-02-04" ∧
    sosoDateOf [("date", J.num (mkRat 1770163200000 1))] = some "2026-02-04" ∧
    sosoDateOf [("date", J.str "2026-02-04T00:00:00Z")] = some "2026-02-04" ∧
    sosoDateOf [("date", J.num (mkRat 999999999 1))] = none := by decide

/-- Counterexample for C7 as stated: neither date path turns
Feb 04, 2026 into 2026-02-04 — the Farside parser rejects it and the
API path truncates it to its first ten characters. -/
theorem date_grammar_cex :
    parse_date "Feb 04, 2026" ≠ some "2026-02-04" ∧
    sosoDateOf [("date", J.str "Feb 04, 2026")] = some "Feb 04, 20" := by decide

/-- C8 (amended): whenever the Farside date parser does not return
absent, its output has the shape YYYY-MM-DD with a four-digit year,
a month drawn from the twelve month codes 01 to 12, and a zero-padded
day below one hundred; the day is not checked against the length of
the month. -/
theorem parse_date_shape : ∀ (s out : String), parse_date s = some out →
    ∃ day code ys, out = String.mk ys ++ "-" ++ code ++ "-" ++ pad2 day ∧ day ≤ 99 ∧
      code ∈ monthTable.map Prod.snd ∧ ys.length = 4 ∧ ys.all isDig = true := by
  intro s out h
  simp only [parse_date] at h
  cases h1 : searchDate s.data with
  | none => rw [h1] at h; exact Option.noConfusion h
  | some r =>
    obtain ⟨day, code, ys⟩ := r
    rw [h1] at h
    injection h with h'
    obtain ⟨hd, hc, hy, ha⟩ := searchDate_shape s.data day code ys h1
    exact ⟨day, code, ys, h'.symm, hd, hc, hy, ha⟩

/-- Witness for C8 at a concrete parse. -/
theorem parse_date_shape_witness :
    ∃ day code ys, "2026-01-23" = String.mk ys ++ "-" ++ code ++ "-" ++ pad2 day ∧ day ≤ 99 ∧
      code ∈ monthTable.map Prod.snd ∧ ys.length = 4 ∧ ys.all isDig = true :=
  parse_date_shape "23 Jan 2026" "2026-01-23" (by decide)

/-- Counterexample for C8 as stated: the parser accepts 31 Feb 2026
and returns 2026-02-31, which is not an actual calendar day. -/
theorem parse_date_invalid_day_cex :
    parse_date "31 Feb 2026" = some "2026-02-31" ∧
    specValidCalendarDay "2026-02-31" = false := by decide

/-- C9: the identity resolver honours the claimed first-match-wins
order — with the one-fund catalog it resolves a parenthesised ticker
and a lower-cased display name and leaves an unknown name unresolved,
exact and case-insensitive exact matches beat substring matches, and
substring matches beat parenthesised-token extraction. -/
theorem resolve_ticker_spec :
    resolve_ticker [("IBIT", "iShares Bitcoin Trust")] "Something (IBIT)" = some "IBIT" ∧
    resolve_ticker [("IBIT", "iShares Bitcoin Trust")] "ishares bitcoin trust" = some "IBIT" ∧
    resolve_ticker [("IBIT", "iShares Bitcoin Trust")] "Unknown Fund" = none ∧
    resolve_ticker [("AAA", "X Alpha Y"), ("BBB", "Alpha")] "Alpha" = some "BBB" ∧
    resolve_ticker [("AAA", "X Alpha Y"), ("BBB", "Alpha")] "ALPHA" = some "BBB" ∧
    resolve_ticker [("AAA", "Some Fund"), ("BBB", "Other")] "Some Fund Extra (BBB)" =
      some "AAA" := by decide

/-- C10: both merge variants leave description, source and the ticker
catalog untouched; last_updated is rewritten to the merge timestamp;
the SoSoValue variant also leaves the ticker order unchanged while
the Farside variant overwrites it with the header tickers of the
current run. -/
theorem merge_frame_effect :
    ∀ (S : Series) (B : List Rec) (now : String) (tk : List String),
      ((etf_merge_and_save S B now).metadata.description = S.metadata.description ∧
       (etf_merge_and_save S B now).metadata.source = S.metadata.source ∧
       (etf_merge_and_save S B now).metadata.etf_info = S.metadata.etf_info ∧
       (etf_merge_and_save S B now).metadata.tickers = S.metadata.tickers ∧
       (etf_merge_and_save S B now).metadata.last_updated = some now) ∧
      ((farside_merge_and_save S B now tk).metadata.description = S.metadata.description ∧
       (farside_merge_and_save S B now tk).metadata.source = S.metadata.source ∧
       (farside_merge_and_save S B now tk).metadata.etf_info = S.metadata.etf_info ∧
       (farside_merge_and_save S B now tk).metadata.tickers = tk ∧
       (farside_merge_and_save S B now tk).metadata.last_updated = some now) :=
  fun _ _ _ _ => ⟨⟨rfl, rfl, rfl, rfl, rfl⟩, rfl, rfl, rfl, rfl, rfl⟩
